/-
Verification of the full-duplex audio pipeline of `full_duplex_assistant`.

Shallow embedding of the audio components found in
`src/src/assistant/services/scraper.js`, `src/web/pcm-player-processor.js`,
`src/web/mic-capture-processor.js` and `src/unnamed/part_004`:
the resamplers, the voice-activity detector, the commit throttle, the
playback-buffer worklets and the generation tracking of the realtime
coordinator.  JavaScript numbers are modelled as exact rationals (ℚ),
typed arrays as `List ℚ`, and `Math.round` as `⌊x + 1/2⌋` (JS rounds
half toward +∞).
-/
import Mathlib

/-! ## Resamplers -/

/-- JavaScript `Math.round`: rounds half toward positive infinity. -/
def jround (q : ℚ) : ℤ := ⌊q + 1/2⌋

/-- `PCMPlayer.resampleLinear(f32, from, to)` from
`src/src/assistant/services/scraper.js` (lines 1327–1337).  The JS null
guard `!f32` is dropped (the input is a genuine list here); the
`from === to` early return, the output length
`Math.max(1, Math.round(f32.length * to / from))`, the source position
`x = i * (f32.length - 1) / (len - 1)`, the neighbour indices
`i0 = Math.floor(x)`, `i1 = Math.min(f32.length - 1, i0 + 1)` and the
blend `f32[i0]*(1-t) + f32[i1]*t` are reproduced exactly. -/
def resampleLinear (f32 : List ℚ) (fromR toR : ℚ) : List ℚ :=
  if fromR = toR then f32
  else
    let len : ℕ := max 1 (jround ((f32.length : ℚ) * toR / fromR)).toNat
    let ratio : ℚ := ((f32.length : ℚ) - 1) / ((len : ℚ) - 1)
    (List.range len).map (fun (i : ℕ) =>
      let x : ℚ := (i : ℚ) * ratio
      let i0 : ℤ := ⌊x⌋
      let i1 : ℤ := min ((f32.length : ℤ) - 1) (i0 + 1)
      let t : ℚ := x - (i0 : ℚ)
      f32.getD i0.toNat 0 * (1 - t) + f32.getD i1.toNat 0 * t)

/-- Modelled from the spec (§4.1 Resampler), for the refinement claim C8:
if `fromRate == toRate` return the input unchanged; otherwise output
length `round(len(samples) * toRate / fromRate)`; for output index `i`,
source position `x = i * (len(samples)-1)/(outLen-1)`, neighbours at
`floor(x)` and `floor(x)+1` clamped to the valid index range, linearly
blended by the fractional part of `x`. -/
def specResample (samples : List ℚ) (fromR toR : ℚ) : List ℚ :=
  if fromR = toR then samples
  else
    let outLen : ℕ := (jround ((samples.length : ℚ) * toR / fromR)).toNat
    (List.range outLen).map (fun (i : ℕ) =>
      let x : ℚ := (i : ℚ) * (((samples.length : ℚ) - 1) / ((outLen : ℚ) - 1))
      let lo : ℤ := min ((samples.length : ℤ) - 1) (max 0 ⌊x⌋)
      let hi : ℤ := min ((samples.length : ℤ) - 1) (max 0 (⌊x⌋ + 1))
      let t : ℚ := x - (⌊x⌋ : ℚ)
      samples.getD lo.toNat 0 * (1 - t) + samples.getD hi.toNat 0 * t)

/-- `downsampleTo16k(buffer, inRate)` from
`src/src/assistant/services/scraper.js` (lines 1357–1371): fixed output
rate 16000; output length `Math.round(buffer.length / (inRate/16000))`;
output sample `idx` is the arithmetic mean of the input samples in the
window `[pos, min(buffer.length, nextPos))` where the loop variable
`pos` holds `Math.round(idx * ratio)` (an integer, so `Math.floor(pos)`
is `pos` itself) and `nextPos = Math.round((idx+1) * ratio)`; an empty
window yields 0. -/
def downsampleTo16k (buffer : List ℚ) (inRate : ℚ) : List ℚ :=
  if inRate = 16000 then buffer
  else
    let ratio : ℚ := inRate / 16000
    let newLen : ℕ := (jround ((buffer.length : ℚ) / ratio)).toNat
    (List.range newLen).map (fun (idx : ℕ) =>
      let pos : ℤ := jround ((idx : ℚ) * ratio)
      let nextPos : ℤ := jround (((idx : ℚ) + 1) * ratio)
      let window := (List.range buffer.length).filter
        (fun (i : ℕ) => decide (pos ≤ (i : ℤ) ∧ (i : ℤ) < nextPos))
      if window.length = 0 then 0
      else (window.map (fun i => buffer.getD i 0)).sum / (window.length : ℚ))

/-- `MicCaptureProcessor._resampleLinear(f32, srcRate, dstRate)` from
`src/web/mic-capture-processor.js` (lines 101–113): early return when
`srcRate === dstRate`; output length `Math.floor(f32.length * ratio)`
with `ratio = dstRate/srcRate`; the running accumulator
`pos += 1/ratio` is modelled exactly as `pos = i / ratio` (the arithmetic
here is exact); `idx = pos | 0` truncates, `frac = pos - idx`;
`a = f32[idx] || 0` and `b = f32[idx+1] || a` keep JavaScript's falsy
semantics: a missing *or zero* `f32[idx+1]` falls back to `a`. -/
def micResampleLinear (f32 : List ℚ) (srcRate dstRate : ℚ) : List ℚ :=
  if srcRate = dstRate then f32
  else
    let ratio : ℚ := dstRate / srcRate
    let outLen : ℕ := (⌊(f32.length : ℚ) * ratio⌋).toNat
    (List.range outLen).map (fun (i : ℕ) =>
      let pos : ℚ := (i : ℚ) / ratio
      let idx : ℕ := (⌊pos⌋).toNat
      let frac : ℚ := pos - (idx : ℚ)
      let a : ℚ := f32.getD idx 0
      let bRaw : ℚ := f32.getD (idx + 1) 0
      let b : ℚ := if bRaw = 0 then a else bRaw
      a + (b - a) * frac)

/-- C9: for every sample sequence `x` and every rate `r`, resampling with
`fromRate = toRate = r` returns `x` unchanged, for all three resampler
variants in the repository (`PCMPlayer.resampleLinear`,
`MicCaptureProcessor._resampleLinear`, and `downsampleTo16k`, whose
output rate is fixed at 16000). -/
theorem resample_identity_all_variants :
    ∀ (x : List ℚ) (r : ℚ),
      resampleLinear x r r = x ∧ micResampleLinear x r r = x ∧
      downsampleTo16k x 16000 = x := by
  intro x r
  refine ⟨?_, ?_, ?_⟩ <;>
    simp [resampleLinear, micResampleLinear, downsampleTo16k]

/-- C8 (counterexample): the capture-path resampler `downsampleTo16k` does
not perform linear interpolation.  On the concrete input
`[0, 1, 0, 1]` at 32000 Hz it box-averages each two-sample window and
returns `[1/2, 1/2]`, while the spec's linear-interpolation formula
(`specResample`) yields `[0, 1]`. -/
theorem downsampleTo16k_not_linear_interp :
    downsampleTo16k [0, 1, 0, 1] 32000 = [1/2, 1/2] ∧
    specResample [0, 1, 0, 1] 32000 16000 = [0, 1] ∧
    downsampleTo16k [0, 1, 0, 1] 32000 ≠
      specResample [0, 1, 0, 1] 32000 16000 := by
  refine ⟨?_, ?_, ?_⟩
  · norm_num [downsampleTo16k, jround, List.range_succ,
      show Int.toNat 2 = 2 from rfl]
  · norm_num [specResample, jround, List.range_succ,
      show Int.toNat 2 = 2 from rfl, show Int.toNat 3 = 3 from rfl]
  · intro h
    have h1 : downsampleTo16k [0, 1, 0, 1] 32000 = [1/2, 1/2] := by
      norm_num [downsampleTo16k, jround, List.range_succ,
        show Int.toNat 2 = 2 from rfl]
    have h2 : specResample [0, 1, 0, 1] 32000 16000 = [0, 1] := by
      norm_num [specResample, jround, List.range_succ,
        show Int.toNat 2 = 2 from rfl, show Int.toNat 3 = 3 from rfl]
    rw [h1, h2] at h
    exact absurd (List.head_eq_of_cons_eq h) (by norm_num)

/-- C8 (amended): the playback-path resampler
`PCMPlayer.resampleLinear` does perform linear interpolation exactly as
the spec formula states: whenever `fromRate ≠ toRate`, the input is
nonempty, and the computed output length `round(len·toRate/fromRate)`
is at least 2, its output coincides with `specResample` (output index
`i` is the linear blend of the input neighbours at `floor(x)` and
`floor(x)+1`, clamped to the valid range, at
`x = i·(len-1)/(outLen-1)`).  The capture-path `downsampleTo16k` does
not (see the counterexample). -/
theorem resampleLinear_matches_spec (f32 : List ℚ) (fromR toR : ℚ)
    (hne : fromR ≠ toR) (hL : 1 ≤ f32.length)
    (hout : 2 ≤ (jround ((f32.length : ℚ) * toR / fromR)).toNat) :
    resampleLinear f32 fromR toR = specResample f32 fromR toR := by
  rw [resampleLinear, specResample, if_neg hne, if_neg hne]
  have hmax : max 1 (jround ((f32.length : ℚ) * toR / fromR)).toNat
      = (jround ((f32.length : ℚ) * toR / fromR)).toNat :=
    Nat.max_eq_right (le_trans one_le_two hout)
  rw [hmax]
  set outLen := (jround ((f32.length : ℚ) * toR / fromR)).toNat with hOutDef
  rw [List.map_inj_left]
  intro i hi
  rw [List.mem_range] at hi
  have hiLt : i < outLen := hi
  have hden : (1 : ℚ) ≤ (outLen : ℚ) - 1 := by
    have : (2 : ℚ) ≤ (outLen : ℚ) := by exact_mod_cast hout
    linarith
  have hnum : (0 : ℚ) ≤ (f32.length : ℚ) - 1 := by
    have : (1 : ℚ) ≤ (f32.length : ℚ) := by exact_mod_cast hL
    linarith
  have hrat : (0 : ℚ) ≤ ((f32.length : ℚ) - 1) / ((outLen : ℚ) - 1) :=
    div_nonneg hnum (by linarith)
  have hx0 : (0 : ℚ) ≤ (i : ℚ) * (((f32.length : ℚ) - 1) / ((outLen : ℚ) - 1)) :=
    mul_nonneg (Nat.cast_nonneg i) hrat
  have hfl0 : 0 ≤ ⌊(i : ℚ) * (((f32.length : ℚ) - 1) / ((outLen : ℚ) - 1))⌋ :=
    Int.floor_nonneg.mpr hx0
  have hile : (i : ℚ) ≤ (outLen : ℚ) - 1 := by
    have : (i : ℚ) + 1 ≤ (outLen : ℚ) := by exact_mod_cast hiLt
    linarith
  have hxle : (i : ℚ) * (((f32.length : ℚ) - 1) / ((outLen : ℚ) - 1))
      ≤ (f32.length : ℚ) - 1 := by
    have h1 : (i : ℚ) * (((f32.length : ℚ) - 1) / ((outLen : ℚ) - 1))
        ≤ ((outLen : ℚ) - 1) * (((f32.length : ℚ) - 1) / ((outLen : ℚ) - 1)) :=
      mul_le_mul_of_nonneg_right hile hrat
    have h2 : ((outLen : ℚ) - 1) * (((f32.length : ℚ) - 1) / ((outLen : ℚ) - 1))
        = (f32.length : ℚ) - 1 :=
      mul_div_cancel₀ _ (by linarith)
    linarith
  have hflle : ⌊(i : ℚ) * (((f32.length : ℚ) - 1) / ((outLen : ℚ) - 1))⌋
      ≤ (f32.length : ℤ) - 1 := by
    rw [Int.floor_le_iff]
    push_cast
    linarith
  simp only [max_eq_right hfl0, min_eq_right hflle,
    max_eq_right (by linarith : (0:ℤ) ≤ ⌊(i : ℚ) * (((f32.length : ℚ) - 1) / ((outLen : ℚ) - 1))⌋ + 1)]

/-- Witness for `resampleLinear_matches_spec` at the concrete input
`[0,1,2,3]`, 48000 → 24000 Hz. -/
theorem resampleLinear_matches_spec_witness :
    resampleLinear [0, 1, 2, 3] 48000 24000 =
      specResample [0, 1, 2, 3] 48000 24000 :=
  resampleLinear_matches_spec [0, 1, 2, 3] 48000 24000 (by norm_num)
    (by norm_num) (by norm_num [jround])

/-! ## Voice activity detector -/

/-- The module-level `vadState` object of
`src/src/assistant/services/scraper.js` (lines 120–123) together with
its configuration fields.  `src/unnamed/part_004` carries an identical
structure. -/
structure VADState where
  speaking : Bool
  noiseFloor : ℚ
  speakHold : ℕ
  silenceHold : ℕ
  attackFrames : ℕ
  releaseFrames : ℕ
  thresholdRatio : ℚ
  zcrWeight : ℚ
deriving Repr, DecidableEq

/-- The per-tick VAD outcome: `vadTick` in the source returns `"start"`,
`"end"` or `false`. -/
inductive VADEvent where
  | vstart
  | vend
  | vnone
deriving Repr, DecidableEq

/-- Noise-floor adaptation of `vadTick` (scraper.js line 163): while not
speaking, `noiseFloor = 0.97*noiseFloor + 0.03*Math.min(rms, 0.05)`. -/
def vadNoiseFloorUpd (s : VADState) (rms : ℚ) : ℚ :=
  if s.speaking then s.noiseFloor
  else 97/100 * s.noiseFloor + 3/100 * min rms (5/100)

/-- The VAD score of `vadTick` (scraper.js lines 165–166):
`rms / Math.max(1e-6, noiseFloor) + zcrWeight * zcr`, computed after the
noise-floor update. -/
def vadScore (s : VADState) (rms zcr : ℚ) : ℚ :=
  rms / max (1/1000000) (vadNoiseFloorUpd s rms) + s.zcrWeight * zcr

/-- One tick of `vadTick` (scraper.js lines 152–184; identically
`src/unnamed/part_004` lines 111–165) from the noise-floor update
onward.  The RMS and ZCR measurements extracted from the analyser frame
(which involve `Math.sqrt`) are taken as the tick's input pair.
Mirrors the attack/release hold counters exactly: while not speaking, a
score above `thresholdRatio` increments `speakHold` and flips to
speaking (emitting `"start"` once) when `speakHold` reaches
`attackFrames`; while speaking, a score below `thresholdRatio*0.6`
increments `silenceHold` and flips back (emitting `"end"`) when it
reaches `releaseFrames`; the opposite comparison resets the respective
hold counter. -/
def vadTick (s : VADState) (rms zcr : ℚ) : VADState × VADEvent :=
  let nf := vadNoiseFloorUpd s rms
  let score := vadScore s rms zcr
  if s.speaking then
    if score < s.thresholdRatio * (6/10) then
      if s.silenceHold + 1 ≥ s.releaseFrames then
        ({ s with noiseFloor := nf, speaking := false, silenceHold := 0, speakHold := 0 }, VADEvent.vend)
      else
        ({ s with noiseFloor := nf, silenceHold := s.silenceHold + 1, speakHold := 0 }, VADEvent.vnone)
    else
      ({ s with noiseFloor := nf, silenceHold := 0, speakHold := 0 }, VADEvent.vnone)
  else
    if score > s.thresholdRatio then
      if s.speakHold + 1 ≥ s.attackFrames then
        ({ s with noiseFloor := nf, speaking := true, speakHold := 0, silenceHold := 0 }, VADEvent.vstart)
      else
        ({ s with noiseFloor := nf, speakHold := s.speakHold + 1, silenceHold := 0 }, VADEvent.vnone)
    else
      ({ s with noiseFloor := nf, speakHold := 0, silenceHold := 0 }, VADEvent.vnone)

/-- Runs `vadTick` over a list of `(rms, zcr)` measurements, collecting
the emitted events in order. -/
def vadRun (s : VADState) : List (ℚ × ℚ) → VADState × List VADEvent
  | [] => (s, [])
  | (rms, zcr) :: rest =>
    let t := vadTick s rms zcr
    let r := vadRun t.1 rest
    (r.1, t.2 :: r.2)

/-- The synthetic-signal premise of the hysteresis property: along the
run, every tick's VAD score exceeds the (constant) threshold ratio. -/
def scoresAbove (s : VADState) : List (ℚ × ℚ) → Bool
  | [] => true
  | (rms, zcr) :: rest =>
    decide (vadScore s rms zcr > s.thresholdRatio) &&
      scoresAbove (vadTick s rms zcr).1 rest

theorem vadRun_append (s : VADState) (L M : List (ℚ × ℚ)) :
    vadRun s (L ++ M) =
      ((vadRun (vadRun s L).1 M).1,
        (vadRun s L).2 ++ (vadRun (vadRun s L).1 M).2) := by
  induction L generalizing s with
  | nil => simp [vadRun]
  | cons p rest ih =>
    obtain ⟨rms, zcr⟩ := p
    simp [vadRun, ih]

theorem vadRun_below_attack (L : List (ℚ × ℚ)) :
    ∀ s : VADState, s.speaking = false → scoresAbove s L = true →
      s.speakHold + L.length < s.attackFrames →
      (vadRun s L).1.speaking = false ∧
      (vadRun s L).1.speakHold = s.speakHold + L.length ∧
      (vadRun s L).1.attackFrames = s.attackFrames ∧
      (vadRun s L).1.thresholdRatio = s.thresholdRatio ∧
      (vadRun s L).2.count VADEvent.vstart = 0 := by
  induction L with
  | nil => intro s hsp _ _; exact ⟨hsp, by simp [vadRun], rfl, rfl, by simp [vadRun]⟩
  | cons p rest ih =>
    intro s hsp habove hlt
    obtain ⟨rms, zcr⟩ := p
    rw [scoresAbove, Bool.and_eq_true, decide_eq_true_iff] at habove
    obtain ⟨hscore, habove'⟩ := habove
    simp only [List.length_cons] at hlt
    have hnofire : ¬ (s.speakHold + 1 ≥ s.attackFrames) := by omega
    have htick : vadTick s rms zcr =
        ({ s with noiseFloor := vadNoiseFloorUpd s rms, speakHold := s.speakHold + 1, silenceHold := 0 },
          VADEvent.vnone) := by
      simp only [vadTick]
      rw [if_neg (by simp [hsp]), if_pos hscore, if_neg hnofire]
    rw [htick] at habove'
    have hlt' : s.speakHold + 1 + rest.length < s.attackFrames := by omega
    have hrec := ih
      ({ s with noiseFloor := vadNoiseFloorUpd s rms, speakHold := s.speakHold + 1, silenceHold := 0 })
      hsp habove' hlt'
    rw [vadRun]
    simp only [htick]
    refine ⟨hrec.1, ?_, hrec.2.2.1, hrec.2.2.2.1, ?_⟩
    · rw [hrec.2.1]
      exact (by omega : s.speakHold + 1 + rest.length = s.speakHold + (rest.length + 1))
    · simp [List.count_cons, hrec.2.2.2.2]

theorem vadRun_speaking_no_start (L : List (ℚ × ℚ)) :
    ∀ s : VADState, s.speaking = true → 0 ≤ s.thresholdRatio →
      scoresAbove s L = true →
      (vadRun s L).2.count VADEvent.vstart = 0 := by
  induction L with
  | nil => intro s _ _ _; simp [vadRun]
  | cons p rest ih =>
    intro s hsp hthr habove
    obtain ⟨rms, zcr⟩ := p
    rw [scoresAbove, Bool.and_eq_true, decide_eq_true_iff] at habove
    obtain ⟨hscore, habove'⟩ := habove
    have hnotbelow : ¬ (vadScore s rms zcr < s.thresholdRatio * (6/10)) := by
      push_neg
      nlinarith [hscore, hthr]
    have htick : vadTick s rms zcr =
        ({ s with noiseFloor := vadNoiseFloorUpd s rms, silenceHold := 0, speakHold := 0 },
          VADEvent.vnone) := by
      simp only [vadTick]
      rw [if_pos hsp, if_neg hnotbelow]
    rw [htick] at habove'
    rw [vadRun]
    simp only [htick]
    simp only [List.count_cons]
    have hrec := ih
      ({ s with noiseFloor := vadNoiseFloorUpd s rms, silenceHold := 0, speakHold := 0 })
      hsp hthr habove'
    simp [hrec]

theorem vadRun_at_most_one_start (L : List (ℚ × ℚ)) :
    ∀ s : VADState, s.speaking = false → 0 ≤ s.thresholdRatio →
      scoresAbove s L = true →
      (vadRun s L).2.count VADEvent.vstart ≤ 1 := by
  induction L with
  | nil => intro s _ _ _; simp [vadRun]
  | cons p rest ih =>
    intro s hsp hthr habove
    obtain ⟨rms, zcr⟩ := p
    rw [scoresAbove, Bool.and_eq_true, decide_eq_true_iff] at habove
    obtain ⟨hscore, habove'⟩ := habove
    by_cases hfire : s.speakHold + 1 ≥ s.attackFrames
    · have htick : vadTick s rms zcr =
          ({ s with noiseFloor := vadNoiseFloorUpd s rms, speaking := true, speakHold := 0, silenceHold := 0 },
            VADEvent.vstart) := by
        simp only [vadTick]
        rw [if_neg (by simp [hsp]), if_pos hscore, if_pos hfire]
      rw [htick] at habove'
      rw [vadRun]
      simp only [htick]
      have h0 := vadRun_speaking_no_start rest
        ({ s with noiseFloor := vadNoiseFloorUpd s rms, speaking := true, speakHold := 0, silenceHold := 0 })
        rfl hthr habove'
      simp [List.count_cons, h0]
    · have htick : vadTick s rms zcr =
          ({ s with noiseFloor := vadNoiseFloorUpd s rms, speakHold := s.speakHold + 1, silenceHold := 0 },
            VADEvent.vnone) := by
        simp only [vadTick]
        rw [if_neg (by simp [hsp]), if_pos hscore, if_neg hfire]
      rw [htick] at habove'
      rw [vadRun]
      simp only [htick]
      have hrec := ih
        ({ s with noiseFloor := vadNoiseFloorUpd s rms, speakHold := s.speakHold + 1, silenceHold := 0 })
        hsp hthr habove'
      simp [List.count_cons, hrec]

theorem vadRun_exact_attack (L : List (ℚ × ℚ)) :
    ∀ s : VADState, s.speaking = false → scoresAbove s L = true →
      L ≠ [] → s.speakHold + L.length = s.attackFrames →
      (vadRun s L).2.count VADEvent.vstart = 1 := by
  induction L with
  | nil => intro s _ _ hne _; exact absurd rfl hne
  | cons p rest ih =>
    intro s hsp habove _ hlen
    obtain ⟨rms, zcr⟩ := p
    rw [scoresAbove, Bool.and_eq_true, decide_eq_true_iff] at habove
    obtain ⟨hscore, habove'⟩ := habove
    simp only [List.length_cons] at hlen
    cases rest with
    | nil =>
      simp only [List.length_nil] at hlen
      have hfire : s.speakHold + 1 ≥ s.attackFrames := by omega
      have htick : vadTick s rms zcr =
          ({ s with noiseFloor := vadNoiseFloorUpd s rms, speaking := true, speakHold := 0, silenceHold := 0 },
            VADEvent.vstart) := by
        simp only [vadTick]
        rw [if_neg (by simp [hsp]), if_pos hscore, if_pos hfire]
      rw [vadRun]
      simp only [htick]
      simp [vadRun, List.count_cons]
    | cons q rest' =>
      have hrestne : q :: rest' ≠ [] := by simp
      have hrestlen : 1 ≤ (q :: rest').length := by simp
      simp only [List.length_cons] at hlen hrestlen
      have hnofire : ¬ (s.speakHold + 1 ≥ s.attackFrames) := by omega
      have htick : vadTick s rms zcr =
          ({ s with noiseFloor := vadNoiseFloorUpd s rms, speakHold := s.speakHold + 1, silenceHold := 0 },
            VADEvent.vnone) := by
        simp only [vadTick]
        rw [if_neg (by simp [hsp]), if_pos hscore, if_neg hnofire]
      rw [htick] at habove'
      have hlen' : s.speakHold + 1 + (q :: rest').length = s.attackFrames := by
        simp only [List.length_cons]
        omega
      have hrec := ih
        ({ s with noiseFloor := vadNoiseFloorUpd s rms, speakHold := s.speakHold + 1, silenceHold := 0 })
        hsp habove' hrestne hlen'
      rw [vadRun]
      simp only [htick]
      simp [List.count_cons, hrec]

/-- C7: VAD attack hysteresis of `vadTick` (scraper.js lines 152–184 and
`src/unnamed/part_004` lines 111–165).  From a not-speaking state with a
zeroed attack counter: (1) a synthetic signal whose score exceeds the
threshold for exactly `attackFrames - 1` consecutive ticks and then
drops to (or below) the threshold emits no `start` event; (2) a signal
whose score exceeds the threshold for `attackFrames` consecutive ticks
emits exactly one `start`; (3) the transition is edge-triggered: along
any above-threshold run (with a nonnegative threshold) at most one
`start` is ever emitted. -/
theorem vad_attack_hysteresis :
    (∀ (s : VADState) (L : List (ℚ × ℚ)) (rms zcr : ℚ),
      s.speaking = false → s.speakHold = 0 →
      scoresAbove s L = true → L.length + 1 = s.attackFrames →
      vadScore (vadRun s L).1 rms zcr ≤ (vadRun s L).1.thresholdRatio →
      (vadRun s (L ++ [(rms, zcr)])).2.count VADEvent.vstart = 0) ∧
    (∀ (s : VADState) (L : List (ℚ × ℚ)),
      s.speaking = false → s.speakHold = 0 →
      scoresAbove s L = true → L.length = s.attackFrames →
      1 ≤ s.attackFrames →
      (vadRun s L).2.count VADEvent.vstart = 1) ∧
    (∀ (s : VADState) (L : List (ℚ × ℚ)),
      s.speaking = false → 0 ≤ s.thresholdRatio →
      scoresAbove s L = true →
      (vadRun s L).2.count VADEvent.vstart ≤ 1) := by
  refine ⟨?_, ?_, ?_⟩
  · intro s L rms zcr hsp hsh habove hlen hle
    have hA := vadRun_below_attack L s hsp habove (by omega)
    rw [vadRun_append]
    simp only [List.count_append, hA.2.2.2.2, Nat.zero_add]
    set s' := (vadRun s L).1 with hs'
    have hnotgt : ¬ (vadScore s' rms zcr > s'.thresholdRatio) := not_lt.mpr hle
    have htick : vadTick s' rms zcr =
        ({ s' with noiseFloor := vadNoiseFloorUpd s' rms, speakHold := 0, silenceHold := 0 },
          VADEvent.vnone) := by
      simp only [vadTick]
      rw [if_neg (by simp [hA.1]), if_neg hnotgt]
    rw [vadRun]
    simp [vadRun, htick, List.count_cons]
  · intro s L hsp hsh habove hlen hatk
    refine vadRun_exact_attack L s hsp habove ?_ (by omega)
    intro hnil
    rw [hnil] at hlen
    simp at hlen
    omega
  · intro s L hsp hthr habove
    exact vadRun_at_most_one_start L s hsp hthr habove

/-- Witness for `vad_attack_hysteresis` at the source's default VAD
configuration (noiseFloor 0.015, attackFrames 3, releaseFrames 12,
thresholdRatio 3, zcrWeight 0.6), driven by RMS-1 frames: two
above-threshold ticks followed by a silent tick emit no start; three
above-threshold ticks emit exactly one start. -/
theorem vad_attack_hysteresis_witness :
    (vadRun ⟨false, 3/200, 0, 0, 3, 12, 3, 3/5⟩
        ([((1:ℚ),(0:ℚ)), (1,0)] ++ [(0,0)])).2.count VADEvent.vstart = 0 ∧
    (vadRun ⟨false, 3/200, 0, 0, 3, 12, 3, 3/5⟩
        [((1:ℚ),(0:ℚ)), (1,0), (1,0)]).2.count VADEvent.vstart = 1 ∧
    (vadRun ⟨false, 3/200, 0, 0, 3, 12, 3, 3/5⟩
        [((1:ℚ),(0:ℚ)), (1,0), (1,0)]).2.count VADEvent.vstart ≤ 1 := by
  refine ⟨?_, ?_, ?_⟩
  · exact vad_attack_hysteresis.1 ⟨false, 3/200, 0, 0, 3, 12, 3, 3/5⟩
      [(1,0),(1,0)] 0 0 rfl rfl
      (by norm_num [scoresAbove, vadTick, vadScore, vadNoiseFloorUpd, min_def, max_def])
      (by norm_num)
      (by norm_num [vadRun, vadTick, vadScore, vadNoiseFloorUpd, min_def, max_def])
  · exact vad_attack_hysteresis.2.1 ⟨false, 3/200, 0, 0, 3, 12, 3, 3/5⟩
      [(1,0),(1,0),(1,0)] rfl rfl
      (by norm_num [scoresAbove, vadTick, vadScore, vadNoiseFloorUpd, min_def, max_def])
      (by norm_num) (by norm_num)
  · exact vad_attack_hysteresis.2.2 ⟨false, 3/200, 0, 0, 3, 12, 3, 3/5⟩
      [(1,0),(1,0),(1,0)] rfl (by norm_num)
      (by norm_num [scoresAbove, vadTick, vadScore, vadNoiseFloorUpd, min_def, max_def])

/-! ## Commit throttle -/

/-- The module-level commit-accounting variables of
`src/src/assistant/services/scraper.js` (line 1372 area) and
`src/unnamed/part_004`: `wsReady` collapses the channel guard
`wsOpen && ws && ws.readyState === 1`; `everAppended`,
`appendedMsSinceCommit` and `lastCommitAt` are the variables of the same
names (`appendedMsSinceCommit` is `appendedMsSinceCommit` /
`appendedMs...` in the source). -/
structure CommitState where
  wsReady : Bool
  everAppended : Bool
  appendedMsSinceCommit : ℚ
  lastCommitAt : ℚ
deriving Repr, DecidableEq

/-- `maybeCommitToServer(force)` from scraper.js lines 1531–1540 and
`src/unnamed/part_004` lines 799–814 (the two are identical): bail out
unless the channel is ready and something was ever appended; a
non-forced attempt additionally requires
`appendedMsSinceCommit ≥ 120` and `now - lastCommitAt ≥ 300`; on
sending, `lastCommitAt := now` and `appendedMsSinceCommit := 0`.  The
`ws.send` is modelled as succeeding (the source swallows exceptions, in
which case no state is updated).  Returns the new state and whether the
commit event was sent. -/
def maybeCommitToServer (force : Bool) (now : ℚ) (s : CommitState) :
    CommitState × Bool :=
  if ¬ s.wsReady then (s, false)
  else if ¬ s.everAppended then (s, false)
  else if ¬ force ∧ s.appendedMsSinceCommit < 120 then (s, false)
  else if ¬ force ∧ now - s.lastCommitAt < 300 then (s, false)
  else ({ s with lastCommitAt := now, appendedMsSinceCommit := 0 }, true)

/-- The append accounting of `captureNode.onaudioprocess` (scraper.js
lines 1509–1527): when the channel is ready, a sent frame of `dsLen`
16-kHz samples sets `everAppended` and adds `dsLen/16000*1000`
milliseconds to `appendedMsSinceCommit`; otherwise the callback returns
without appending. -/
def captureAppend (s : CommitState) (dsLen : ℕ) : CommitState :=
  if s.wsReady then
    { s with everAppended := true, appendedMsSinceCommit := s.appendedMsSinceCommit + (dsLen : ℚ) / 16000 * 1000 }
  else s

/-- Operations touching the commit state: an append of a capture frame,
or a call to `maybeCommitToServer` at a given time. -/
inductive CommitOp where
  | append (dsLen : ℕ)
  | attempt (force : Bool) (now : ℚ)

/-- One operation; a sent commit is recorded as its `(time, forced)`
pair. -/
def commitStep (s : CommitState) : CommitOp → CommitState × Option (ℚ × Bool)
  | CommitOp.append n => (captureAppend s n, none)
  | CommitOp.attempt force now =>
    let r := maybeCommitToServer force now s
    (r.1, if r.2 then some (now, force) else none)

/-- Runs a sequence of operations, collecting the sent commits in
order. -/
def commitRun (s : CommitState) : List CommitOp → CommitState × List (ℚ × Bool)
  | [] => (s, [])
  | op :: rest =>
    let r := commitStep s op
    let rr := commitRun r.1 rest
    (rr.1, (r.2.toList) ++ rr.2)

/-- The times at which `maybeCommitToServer` is invoked along a trace. -/
def attemptTimes : List CommitOp → List ℚ
  | [] => []
  | CommitOp.append _ :: rest => attemptTimes rest
  | CommitOp.attempt _ now :: rest => now :: attemptTimes rest

theorem maybeCommit_not_sent_state (force : Bool) (now : ℚ) (s : CommitState) :
    (maybeCommitToServer force now s).2 = false →
    (maybeCommitToServer force now s).1 = s := by
  unfold maybeCommitToServer
  split_ifs <;> simp

theorem maybeCommit_nonforced_iff (s : CommitState) (now : ℚ) :
    (maybeCommitToServer false now s).2 = true ↔
      s.wsReady = true ∧ s.everAppended = true ∧
      120 ≤ s.appendedMsSinceCommit ∧ 300 ≤ now - s.lastCommitAt := by
  unfold maybeCommitToServer
  split_ifs with h1 h2 h3 h4 <;> simp_all

theorem maybeCommit_sent_state (force : Bool) (now : ℚ) (s : CommitState) :
    (maybeCommitToServer force now s).2 = true →
    (maybeCommitToServer force now s).1.lastCommitAt = now ∧
    (maybeCommitToServer force now s).1.appendedMsSinceCommit = 0 := by
  unfold maybeCommitToServer
  split_ifs <;> simp

theorem chainLe_weaken {a b : ℚ} {l : List ℚ} (hba : b ≤ a) :
    List.Chain (· ≤ ·) a l → List.Chain (· ≤ ·) b l := by
  cases l with
  | nil => intro _; exact List.Chain.nil
  | cons x xs =>
    intro h
    rw [List.chain_cons] at h ⊢
    exact ⟨le_trans hba h.1, h.2⟩

theorem captureAppend_lastCommitAt (s : CommitState) (n : ℕ) :
    (captureAppend s n).lastCommitAt = s.lastCommitAt := by
  unfold captureAppend
  split <;> rfl

theorem commitRun_cons (s : CommitState) (op : CommitOp) (rest : List CommitOp) :
    commitRun s (op :: rest) =
      ((commitRun (commitStep s op).1 rest).1,
        (commitStep s op).2.toList ++ (commitRun (commitStep s op).1 rest).2) :=
  rfl

theorem commitRun_sends_ok (ops : List CommitOp) :
    ∀ s : CommitState,
      List.Chain (· ≤ ·) s.lastCommitAt (attemptTimes ops) →
      List.Pairwise (fun a b : ℚ × Bool => b.2 = false → 300 ≤ b.1 - a.1)
        (commitRun s ops).2 ∧
      ∀ p ∈ (commitRun s ops).2,
        s.lastCommitAt ≤ p.1 ∧ (p.2 = false → 300 ≤ p.1 - s.lastCommitAt) := by
  induction ops with
  | nil => intro s _; simp [commitRun]
  | cons op rest ih =>
    intro s hchain
    cases op with
    | append n =>
      simp only [attemptTimes] at hchain
      rw [commitRun_cons]
      have hch' : List.Chain (· ≤ ·) (captureAppend s n).lastCommitAt
          (attemptTimes rest) := by
        rw [captureAppend_lastCommitAt]; exact hchain
      have hrec := ih (captureAppend s n) hch'
      rw [captureAppend_lastCommitAt] at hrec
      simpa [commitStep] using hrec
    | attempt force now =>
      simp only [attemptTimes, List.chain_cons] at hchain
      obtain ⟨hle_now, hchain'⟩ := hchain
      rw [commitRun_cons]
      by_cases hsent : (maybeCommitToServer force now s).2 = true
      · have hstate := maybeCommit_sent_state force now s hsent
        have hstep : commitStep s (CommitOp.attempt force now) =
            ((maybeCommitToServer force now s).1, some (now, force)) := by
          simp [commitStep, hsent]
        rw [hstep]
        have hch'' : List.Chain (· ≤ ·)
            (maybeCommitToServer force now s).1.lastCommitAt
            (attemptTimes rest) := by
          rw [hstate.1]; exact hchain'
        have hrec := ih (maybeCommitToServer force now s).1 hch''
        rw [hstate.1] at hrec
        constructor
        · refine List.Pairwise.cons ?_ hrec.1
          intro p hp hpf
          have h := (hrec.2 p hp).2 hpf
          simpa using h
        · intro p hp
          rcases List.mem_cons.mp hp with rfl | hp'
          · refine ⟨hle_now, ?_⟩
            intro hf
            simp only at hf
            rw [hf] at hsent
            have h := (maybeCommit_nonforced_iff s now).mp hsent
            simpa using h.2.2.2
          · have h2 := hrec.2 p hp'
            refine ⟨le_trans hle_now h2.1, fun hf => ?_⟩
            have := h2.2 hf
            linarith
      · have hfalse : (maybeCommitToServer force now s).2 = false :=
          Bool.not_eq_true _ ▸ Bool.eq_false_iff.mpr (by simpa using hsent)
        have hstate := maybeCommit_not_sent_state force now s hfalse
        have hstep : commitStep s (CommitOp.attempt force now) = (s, none) := by
          simp [commitStep, hfalse, hstate]
        rw [hstep]
        have hch'' : List.Chain (· ≤ ·) s.lastCommitAt (attemptTimes rest) :=
          chainLe_weaken hle_now hchain'
        simpa using ih s hch''

/-- C6: a non-forced `maybeCommitToServer` sends if and only if the
channel is ready, audio was ever appended, at least 120 ms have
accumulated since the last commit, and at least 300 ms have elapsed
since the last commit; on sending, `lastCommitAt := now` and
`appendedMsSinceCommit := 0`; consequently, along any operation trace
with non-decreasing attempt times, any commit following an earlier one
at distance below 300 ms must be forced — non-forced commits are never
sent more often than once per 300 ms. -/
theorem commit_throttle :
    (∀ (s : CommitState) (now : ℚ),
      (maybeCommitToServer false now s).2 = true ↔
        s.wsReady = true ∧ s.everAppended = true ∧
        120 ≤ s.appendedMsSinceCommit ∧ 300 ≤ now - s.lastCommitAt) ∧
    (∀ (force : Bool) (now : ℚ) (s : CommitState),
      (maybeCommitToServer force now s).2 = true →
      (maybeCommitToServer force now s).1.lastCommitAt = now ∧
      (maybeCommitToServer force now s).1.appendedMsSinceCommit = 0) ∧
    (∀ (s : CommitState) (ops : List CommitOp),
      List.Chain (· ≤ ·) s.lastCommitAt (attemptTimes ops) →
      List.Pairwise (fun a b : ℚ × Bool => b.2 = false → 300 ≤ b.1 - a.1)
        (commitRun s ops).2) :=
  ⟨maybeCommit_nonforced_iff, maybeCommit_sent_state,
    fun s ops hchain => (commitRun_sends_ok ops s hchain).1⟩

/-- Witness for `commit_throttle`: a commit sends at 220 ms accumulated
and 400 ms elapsed; it resets the state; and along the concrete trace
append, attempt@400, append, attempt@500, attempt@800 the sent commits
are exactly (400, non-forced) and (800, non-forced), pairwise at least
300 ms apart. -/
theorem commit_throttle_witness :
    (maybeCommitToServer false 400 ⟨true, true, 220, 0⟩).2 = true ∧
    (maybeCommitToServer false 400 ⟨true, true, 220, 0⟩).1.lastCommitAt = 400 ∧
    (maybeCommitToServer false 400 ⟨true, true, 220, 0⟩).1.appendedMsSinceCommit = 0 ∧
    List.Pairwise (fun a b : ℚ × Bool => b.2 = false → 300 ≤ b.1 - a.1)
      (commitRun ⟨true, false, 0, 0⟩
        [CommitOp.append 3520, CommitOp.attempt false 400,
         CommitOp.append 3520, CommitOp.attempt false 500,
         CommitOp.attempt false 800]).2 := by
  have hsent : (maybeCommitToServer false 400 ⟨true, true, 220, 0⟩).2 = true :=
    (commit_throttle.1 ⟨true, true, 220, 0⟩ 400).mpr
      ⟨rfl, rfl, by norm_num, by norm_num⟩
  have heff := commit_throttle.2.1 false 400 ⟨true, true, 220, 0⟩ hsent
  refine ⟨hsent, heff.1, heff.2, ?_⟩
  exact commit_throttle.2.2 ⟨true, false, 0, 0⟩ _
    (by norm_num [attemptTimes, List.chain_cons])

/-- C5 (counterexample): a forced commit attempt is sent even while
`appendedMsSinceCommit = 0`.  Starting from a fresh ready session, after
one 220 ms append and one forced commit at t=400 (which resets
`appendedMsSinceCommit` to 0), a second forced attempt at t=500 still
sends the commit event because the only guard beyond channel readiness
is `everAppended` — contradicting the claim that no commit is ever sent
while `appendedDurationSinceCommit` equals 0. -/
theorem forced_commit_sends_with_zero_appended :
    (commitRun ⟨true, false, 0, 0⟩
      [CommitOp.append 3520, CommitOp.attempt true 400]).1.appendedMsSinceCommit
      = 0 ∧
    (maybeCommitToServer true 500
      (commitRun ⟨true, false, 0, 0⟩
        [CommitOp.append 3520, CommitOp.attempt true 400]).1).2 = true := by
  constructor <;>
    norm_num [commitRun, commitStep, captureAppend, maybeCommitToServer]

/-- C5 (amended): a non-forced commit attempt is never sent while
`appendedMsSinceCommit = 0` (it requires 120 ms accumulated); no commit
of any kind is sent before the first append of the connection
(`everAppended = false` makes every attempt a no-op); and any attempt
that does not send leaves the state entirely unchanged — a no-op, not
an error.  A forced attempt, however, is sent with
`appendedMsSinceCommit = 0` whenever the channel is ready and
`everAppended` holds (see the counterexample). -/
theorem commit_zero_appended_guard :
    (∀ (s : CommitState) (now : ℚ), s.appendedMsSinceCommit = 0 →
      (maybeCommitToServer false now s).2 = false) ∧
    (∀ (force : Bool) (now : ℚ) (s : CommitState), s.everAppended = false →
      maybeCommitToServer force now s = (s, false)) ∧
    (∀ (force : Bool) (now : ℚ) (s : CommitState),
      (maybeCommitToServer force now s).2 = false →
      (maybeCommitToServer force now s).1 = s) := by
  refine ⟨?_, ?_, fun force now s h => maybeCommit_not_sent_state force now s h⟩
  · intro s now h0
    unfold maybeCommitToServer
    split_ifs with h1 h2 h3 h4 <;> try rfl
    exact absurd ⟨by simp, by rw [h0]; norm_num⟩ h3
  · intro force now s hev
    unfold maybeCommitToServer
    split_ifs <;> simp_all

/-- Witness for `commit_zero_appended_guard` at concrete states: a
non-forced attempt at zero accumulation does not send; an attempt before
any append is a no-op; and the failed attempt leaves the state
unchanged. -/
theorem commit_zero_appended_guard_witness :
    (maybeCommitToServer false 999 ⟨true, true, 0, 0⟩).2 = false ∧
    maybeCommitToServer true 999 ⟨true, false, 50, 0⟩ =
      (⟨true, false, 50, 0⟩, false) ∧
    (maybeCommitToServer false 999 ⟨true, true, 0, 0⟩).1 = ⟨true, true, 0, 0⟩ :=
  ⟨commit_zero_appended_guard.1 ⟨true, true, 0, 0⟩ 999 rfl,
   commit_zero_appended_guard.2.1 true 999 ⟨true, false, 50, 0⟩ rfl,
   commit_zero_appended_guard.2.2 false 999 ⟨true, true, 0, 0⟩
     (commit_zero_appended_guard.1 ⟨true, true, 0, 0⟩ 999 rfl)⟩

/-! ## Playback buffers -/

/-- State of the `PCMFeeder` worklet defined inline in
`src/src/assistant/services/scraper.js` (lines 1255–1281): a FIFO of
chunk buffers, a read cursor into the current chunk, and the current
chunk (`null` when none). -/
structure FeederState where
  buffers : List (List ℚ)
  readIndex : ℕ
  cur : Option (List ℚ)
deriving Repr, DecidableEq

/-- The `while (i < out.length)` loop of `PCMFeeder.process`: when the
current chunk is absent or exhausted, shift the next buffer (on
underrun, `out.fill(0)` zeroes the whole output — modelled by returning
`none` — leaving empty state); otherwise copy
`take = min(remaining, cur.length - readIndex)` samples and continue.
Returns `some written` on a complete fill, `none` on underrun, plus the
final state. -/
def feederLoop (cur : Option (List ℚ)) (ri : ℕ) (bufs : List (List ℚ))
    (n : ℕ) : Option (List ℚ) × FeederState :=
  if hn : n = 0 then (some [], ⟨bufs, ri, cur⟩)
  else
    match cur with
    | none =>
      match bufs with
      | [] => (none, ⟨[], 0, none⟩)
      | c :: rest => feederLoop (some c) 0 rest n
    | some c =>
      if hri : c.length ≤ ri then
        match bufs with
        | [] => (none, ⟨[], 0, none⟩)
        | c2 :: rest => feederLoop (some c2) 0 rest n
      else
        let tk := min n (c.length - ri)
        let written := (c.drop ri).take tk
        let r := feederLoop (some c) (ri + tk) bufs (n - tk)
        (r.1.map (fun l => written ++ l), r.2)
termination_by bufs.length + n

/-- `PCMFeeder.process(_in, outputs)` for one render quantum of `n`
samples: runs the loop; on underrun the output is all zeros
(`out.fill(0)`). -/
def feederProcess (s : FeederState) (n : ℕ) : List ℚ × FeederState :=
  let r := feederLoop s.cur s.readIndex s.buffers n
  (match r.1 with
   | none => List.replicate n 0
   | some l => l, r.2)

/-- The pending samples of a feeder state, in render order: the
unconsumed tail of the current chunk followed by the queued buffers. -/
def feederContents (s : FeederState) : List ℚ :=
  (match s.cur with
   | none => []
   | some c => c.drop s.readIndex) ++ s.buffers.flatten

def pendingOf (cur : Option (List ℚ)) (ri : ℕ) (bufs : List (List ℚ)) : List ℚ :=
  (match cur with
   | none => []
   | some c => c.drop ri) ++ bufs.flatten

theorem take_min_glue (L J : List ℚ) (n : ℕ) :
    L.take (min n L.length) ++ (L.drop (min n L.length) ++ J).take (n - min n L.length) =
      (L ++ J).take n := by
  rcases le_total n L.length with h | h
  · simp [min_eq_left h, Nat.sub_eq_zero_of_le h, List.take_append_eq_append_take]
  · simp [min_eq_right h, List.take_append_eq_append_take, List.take_of_length_le h]

theorem drop_min_glue (L J : List ℚ) (n : ℕ) :
    (L.drop (min n L.length) ++ J).drop (n - min n L.length) = (L ++ J).drop n := by
  rcases le_total n L.length with h | h
  · simp [min_eq_left h, Nat.sub_eq_zero_of_le h, List.drop_append_eq_append_drop]
  · simp [min_eq_right h, List.drop_append_eq_append_drop, List.drop_of_length_le h]

theorem feederLoop_spec :
    ∀ (k : ℕ) (cur : Option (List ℚ)) (ri : ℕ) (bufs : List (List ℚ)) (n : ℕ),
      bufs.length + n ≤ k →
      ((n ≤ (pendingOf cur ri bufs).length →
        (feederLoop cur ri bufs n).1 = some ((pendingOf cur ri bufs).take n) ∧
        feederContents (feederLoop cur ri bufs n).2 = (pendingOf cur ri bufs).drop n) ∧
       ((pendingOf cur ri bufs).length < n →
        (feederLoop cur ri bufs n).1 = none ∧
        feederContents (feederLoop cur ri bufs n).2 = [])) := by
  intro k
  induction k with
  | zero =>
    intro cur ri bufs n hk
    have hn : n = 0 := by omega
    subst hn
    rw [feederLoop.eq_def]
    simp only [↓reduceDIte]
    constructor
    · intro _
      exact ⟨by simp, by simp [feederContents, pendingOf]⟩
    · intro h
      exact absurd h (by omega)
  | succ k ih =>
    intro cur ri bufs n hk
    by_cases hn : n = 0
    · subst hn
      rw [feederLoop.eq_def]
      simp only [↓reduceDIte]
      constructor
      · intro _
        exact ⟨by simp, by simp [feederContents, pendingOf]⟩
      · intro h
        exact absurd h (by omega)
    · rw [feederLoop.eq_def, dif_neg hn]
      cases cur with
      | none =>
        cases bufs with
        | nil =>
          constructor
          · intro hle
            exfalso
            simp [pendingOf] at hle
            omega
          · intro _
            exact ⟨rfl, by simp [feederContents]⟩
        | cons c rest =>
          have hpend : pendingOf (some c) 0 rest = pendingOf none ri (c :: rest) := by
            simp [pendingOf]
          have hrec := ih (some c) 0 rest n (by simp at hk ⊢; omega)
          rw [hpend] at hrec
          exact hrec
      | some c =>
        dsimp only
        by_cases hri : c.length ≤ ri
        · rw [dif_pos hri]
          cases bufs with
          | nil =>
            constructor
            · intro hle
              exfalso
              simp [pendingOf, List.drop_eq_nil_of_le hri] at hle
              omega
            · intro _
              exact ⟨rfl, by simp [feederContents]⟩
          | cons c2 rest =>
            have hpend : pendingOf (some c2) 0 rest = pendingOf (some c) ri (c2 :: rest) := by
              simp [pendingOf, List.drop_eq_nil_of_le hri]
            have hrec := ih (some c2) 0 rest n (by simp at hk ⊢; omega)
            rw [hpend] at hrec
            exact hrec
        · rw [dif_neg hri]
          have hriv : ri < c.length := lt_of_not_ge hri
          have hLlen : (c.drop ri).length = c.length - ri := by simp
          have htk1 : 1 ≤ min n (c.length - ri) := by omega
          have hrec := ih (some c) (ri + min n (c.length - ri)) bufs
            (n - min n (c.length - ri)) (by omega)
          have hpend' : pendingOf (some c) (ri + min n (c.length - ri)) bufs =
              (c.drop ri).drop (min n (c.length - ri)) ++ bufs.flatten := by
            simp [pendingOf, List.drop_drop, Nat.add_comm]
          rw [hpend'] at hrec
          have htkL : min n (c.length - ri) = min n (c.drop ri).length := by rw [hLlen]
          constructor
          · intro hle
            simp only [pendingOf, List.length_append] at hle
            have hle' : n - min n (c.length - ri) ≤
                ((c.drop ri).drop (min n (c.length - ri)) ++ bufs.flatten).length := by
              simp only [List.length_append, List.length_drop]
              omega
            obtain ⟨ho, hc⟩ := hrec.1 hle'
            constructor
            · simp only [ho, Option.map_some']
              rw [htkL]
              rw [take_min_glue (c.drop ri) bufs.flatten n]
              rfl
            · rw [hc]
              rw [htkL]
              rw [drop_min_glue (c.drop ri) bufs.flatten n]
              rfl
          · intro hlt
            simp only [pendingOf, List.length_append] at hlt
            have hlt' : ((c.drop ri).drop (min n (c.length - ri)) ++ bufs.flatten).length <
                n - min n (c.length - ri) := by
              simp only [List.length_append, List.length_drop]
              omega
            obtain ⟨ho, hc⟩ := hrec.2 hlt'
            exact ⟨by simp [ho], hc⟩

theorem feederProcess_spec (s : FeederState) (n : ℕ) :
    ((feederProcess s n).1 =
      if n ≤ (feederContents s).length then (feederContents s).take n
      else List.replicate n 0) ∧
    (feederContents (feederProcess s n).2 =
      if n ≤ (feederContents s).length then (feederContents s).drop n
      else []) := by
  have h := feederLoop_spec (s.buffers.length + n) s.cur s.readIndex s.buffers n le_rfl
  have hpc : pendingOf s.cur s.readIndex s.buffers = feederContents s := rfl
  rw [hpc] at h
  by_cases hle : n ≤ (feederContents s).length
  · obtain ⟨ho, hc⟩ := h.1 hle
    rw [if_pos hle, if_pos hle]
    constructor
    · show (match (feederLoop s.cur s.readIndex s.buffers n).1 with
        | none => List.replicate n 0
        | some l => l) = (feederContents s).take n
      rw [ho]
    · exact hc
  · obtain ⟨ho, hc⟩ := h.2 (by omega)
    rw [if_neg hle, if_neg hle]
    constructor
    · show (match (feederLoop s.cur s.readIndex s.buffers n).1 with
        | none => List.replicate n 0
        | some l => l) = List.replicate n 0
      rw [ho]
    · exact hc

/-- State of the `PCMPlayer` worklet in
`src/web/pcm-player-processor.js`: a FIFO of non-empty chunks and the
read cursor into the head chunk. -/
structure WebPlayerState where
  queue : List (List ℚ)
  readIndex : ℕ
deriving Repr, DecidableEq

/-- `PCMPlayer._pullSample()` (pcm-player-processor.js lines 22–31):
returns 0 on an empty queue; otherwise reads `curr[readIndex]`
(`v ?? 0` modelled with `getD`), advances the cursor, and shifts the
exhausted head chunk. -/
def webPullSample (s : WebPlayerState) : ℚ × WebPlayerState :=
  match s.queue with
  | [] => (0, s)
  | curr :: rest =>
    let v := curr.getD s.readIndex 0
    if curr.length ≤ s.readIndex + 1 then (v, ⟨rest, 0⟩)
    else (v, ⟨curr :: rest, s.readIndex + 1⟩)

/-- `PCMPlayer.process` (pcm-player-processor.js lines 33–45) writing
one render quantum of `n` samples via `_pullSample` (the second output
channel merely duplicates the first and is not modelled). -/
def webProcess (s : WebPlayerState) : ℕ → List ℚ × WebPlayerState
  | 0 => ([], s)
  | n + 1 =>
    let r := webPullSample s
    let rr := webProcess r.2 n
    (r.1 :: rr.1, rr.2)

/-- Well-formedness maintained by the worklet: the `onmessage` handler
only pushes chunks with `f32.length > 0`, and the cursor always sits
inside the head chunk. -/
def webWF (s : WebPlayerState) : Bool :=
  s.queue.all (fun c => decide (0 < c.length)) &&
    (match s.queue with
     | [] => true
     | c :: _ => decide (s.readIndex < c.length))

/-- The pending samples of the web player, in render order. -/
def webContents (s : WebPlayerState) : List ℚ :=
  match s.queue with
  | [] => []
  | c :: rest => c.drop s.readIndex ++ rest.flatten

theorem webContents_zero (q : List (List ℚ)) :
    webContents ⟨q, 0⟩ = q.flatten := by
  cases q <;> simp [webContents]

theorem webPullSample_spec (s : WebPlayerState) (hwf : webWF s = true) :
    webWF (webPullSample s).2 = true ∧
    (webContents s = [] → webPullSample s = (0, s)) ∧
    (∀ v t, webContents s = v :: t →
      (webPullSample s).1 = v ∧ webContents (webPullSample s).2 = t) := by
  obtain ⟨queue, ri⟩ := s
  cases queue with
  | nil =>
    refine ⟨hwf, fun _ => rfl, ?_⟩
    intro v t hvt
    exact absurd hvt (by simp [webContents])
  | cons c rest =>
    simp only [webWF, List.all_cons, Bool.and_eq_true, decide_eq_true_iff] at hwf
    obtain ⟨⟨hc, hrest⟩, hri⟩ := hwf
    have hcontents : webContents ⟨c :: rest, ri⟩ =
        c.get ⟨ri, hri⟩ :: (c.drop (ri + 1) ++ rest.flatten) := by
      simp only [webContents]
      rw [List.drop_eq_getElem_cons hri]
      simp only [List.get_eq_getElem, List.cons_append]
    have hv : c.getD ri 0 = c.get ⟨ri, hri⟩ := by
      rw [List.getD_eq_getElem c 0 hri]
      simp [List.get_eq_getElem]
    by_cases hend : c.length ≤ ri + 1
    · have hpull : webPullSample ⟨c :: rest, ri⟩ = (c.get ⟨ri, hri⟩, ⟨rest, 0⟩) := by
        simp [webPullSample, hend, hv, List.getElem?_eq_getElem hri]
      refine ⟨?_, ?_, ?_⟩
      · rw [hpull]
        cases rest with
        | nil => rfl
        | cons r rs =>
          have h0 : 0 < r.length := by
            simp only [List.all_cons, Bool.and_eq_true, decide_eq_true_iff] at hrest
            exact hrest.1
          simp [webWF, hrest, h0]
      · intro hempty
        rw [hcontents] at hempty
        exact absurd hempty (by simp)
      · intro v t hvt
        rw [hcontents] at hvt
        obtain ⟨rfl, rfl⟩ : c.get ⟨ri, hri⟩ = v ∧ c.drop (ri + 1) ++ rest.flatten = t := by
          exact ⟨(List.cons.injEq _ _ _ _ ▸ hvt).1, (List.cons.injEq _ _ _ _ ▸ hvt).2⟩
        rw [hpull]
        refine ⟨rfl, ?_⟩
        rw [webContents_zero, List.drop_eq_nil_of_le hend]
        rfl
    · have hpull : webPullSample ⟨c :: rest, ri⟩ =
          (c.get ⟨ri, hri⟩, ⟨c :: rest, ri + 1⟩) := by
        simp [webPullSample, hend, hv, List.getElem?_eq_getElem hri]
      have hlt : ri + 1 < c.length := lt_of_not_ge hend
      refine ⟨?_, ?_, ?_⟩
      · rw [hpull]
        simp [webWF, hc, hrest, hlt]
      · intro hempty
        rw [hcontents] at hempty
        exact absurd hempty (by simp)
      · intro v t hvt
        rw [hcontents] at hvt
        obtain ⟨rfl, rfl⟩ : c.get ⟨ri, hri⟩ = v ∧ c.drop (ri + 1) ++ rest.flatten = t := by
          exact ⟨(List.cons.injEq _ _ _ _ ▸ hvt).1, (List.cons.injEq _ _ _ _ ▸ hvt).2⟩
        rw [hpull]
        exact ⟨rfl, rfl⟩

theorem webProcess_spec (n : ℕ) :
    ∀ s : WebPlayerState, webWF s = true →
      (webProcess s n).1 =
        (webContents s).take n ++
          List.replicate (n - (webContents s).length) 0 ∧
      webWF (webProcess s n).2 = true := by
  induction n with
  | zero => intro s hwf; exact ⟨by simp [webProcess], hwf⟩
  | succ n ih =>
    intro s hwf
    have hps := webPullSample_spec s hwf
    cases hcont : webContents s with
    | nil =>
      have h1 := hps.2.1 hcont
      have ih' := ih s hwf
      constructor
      · show (webPullSample s).1 :: (webProcess (webPullSample s).2 n).1 = _
        rw [h1]
        show (0 : ℚ) :: (webProcess s n).1 = _
        rw [ih'.1, hcont]
        simp [List.replicate_succ]
      · show webWF (webProcess (webPullSample s).2 n).2 = true
        rw [h1]
        exact ih'.2
    | cons v t =>
      have h2 := hps.2.2 v t hcont
      have ihs := ih (webPullSample s).2 hps.1
      constructor
      · show (webPullSample s).1 :: (webProcess (webPullSample s).2 n).1 = _
        rw [h2.1, ihs.1, h2.2]
        simp [hcont, List.take_succ_cons, Nat.succ_sub_succ]
      · exact ihs.2

/-- C3 (counterexample): the `PCMFeeder` variant of the playback buffer
(scraper.js) does not return the queued samples followed by zeros on a
partial underrun.  With a single queued sample 5 and a pull of 2
samples, the claim predicts `[5, 0]`; the code consumes the sample,
hits the underrun, executes `out.fill(0)` over the whole output and
returns `[0, 0]` — the queued sample is discarded. -/
theorem feeder_partial_underrun_discards :
    (feederProcess ⟨[[5]], 0, none⟩ 2).1 = [0, 0] ∧
    (feederProcess ⟨[[5]], 0, none⟩ 2).1 ≠ [5, 0] := by
  have h := (feederProcess_spec ⟨[[5]], 0, none⟩ 2).1
  have hc : feederContents ⟨[[(5:ℚ)]], 0, none⟩ = [5] := by
    simp [feederContents]
  rw [hc] at h
  rw [if_neg (by norm_num)] at h
  constructor
  · rw [h]; rfl
  · rw [h]
    intro heq
    have := List.head_eq_of_cons_eq heq
    norm_num at this

/-- C3 (amended): both playback-buffer pulls are total and return
exactly `n` samples, and pulling from an empty queue yields `n` zeros;
but only the `pcm-player-processor.js` variant zero-fills a partial
shortfall.  For the web `PCMPlayer` (under the worklet's invariant that
queued chunks are non-empty and the cursor is in range), the output is
the first `min(n, queued)` samples in FIFO order followed by zeros.
For the scraper `PCMFeeder`, the output is the first `n` queued samples
when at least `n` are queued, and otherwise `n` zeros — the queued
samples are consumed and discarded (see the counterexample). -/
theorem pull_underrun_characterization :
    (∀ (s : WebPlayerState) (n : ℕ), webWF s = true →
      (webProcess s n).1 =
        (webContents s).take n ++
          List.replicate (n - (webContents s).length) 0 ∧
      (webProcess s n).1.length = n) ∧
    (∀ (s : FeederState) (n : ℕ),
      (feederProcess s n).1 =
        (if n ≤ (feederContents s).length then (feederContents s).take n
         else List.replicate n 0) ∧
      (feederProcess s n).1.length = n) := by
  constructor
  · intro s n hwf
    have h := (webProcess_spec n s hwf).1
    refine ⟨h, ?_⟩
    rw [h]
    simp only [List.length_append, List.length_take, List.length_replicate]
    omega
  · intro s n
    have h := (feederProcess_spec s n).1
    refine ⟨h, ?_⟩
    rw [h]
    by_cases hle : n ≤ (feederContents s).length
    · rw [if_pos hle]
      simp only [List.length_take]
      omega
    · rw [if_neg hle]
      simp

/-- Witness for `pull_underrun_characterization`: a single queued chunk
`[7]` pulled for 2 samples from the web player, and the feeder pulled
for 1 sample with `[5]` queued. -/
theorem pull_underrun_characterization_witness :
    ((webProcess ⟨[[(7:ℚ)]], 0⟩ 2).1 =
      (webContents ⟨[[(7:ℚ)]], 0⟩).take 2 ++
        List.replicate (2 - (webContents ⟨[[(7:ℚ)]], 0⟩).length) 0 ∧
     (webProcess ⟨[[(7:ℚ)]], 0⟩ 2).1.length = 2) ∧
    ((feederProcess ⟨[[(5:ℚ)]], 0, none⟩ 1).1 =
      (if 1 ≤ (feederContents ⟨[[(5:ℚ)]], 0, none⟩).length
       then (feederContents ⟨[[(5:ℚ)]], 0, none⟩).take 1
       else List.replicate 1 0) ∧
     (feederProcess ⟨[[(5:ℚ)]], 0, none⟩ 1).1.length = 1) :=
  ⟨pull_underrun_characterization.1 ⟨[[(7:ℚ)]], 0⟩ 2 (by decide),
   pull_underrun_characterization.2 ⟨[[(5:ℚ)]], 0, none⟩ 1⟩

/-- Control-side operations on the `PCMFeeder` worklet: `push` and
`clear` arrive via `port.onmessage` (scraper.js lines 1261–1265), and
`pull n` is one invocation of `process` by the render callback. -/
inductive FOp where
  | push (chunk : List ℚ)
  | clear
  | pull (n : ℕ)

/-- One feeder operation: `push` appends to `buffers`; `clear` resets
`buffers`, `cur` and `readIndex` in one step; `pull` runs the render
loop and yields its output. -/
def feederStep (s : FeederState) : FOp → FeederState × Option (List ℚ)
  | FOp.push c => ({ s with buffers := s.buffers ++ [c] }, none)
  | FOp.clear => (⟨[], 0, none⟩, none)
  | FOp.pull n => ((feederProcess s n).2, some (feederProcess s n).1)

/-- Runs a sequence of feeder operations, collecting pull outputs. -/
def feederRunOps (s : FeederState) : List FOp → FeederState × List (List ℚ)
  | [] => (s, [])
  | op :: rest =>
    let r := feederStep s op
    let rr := feederRunOps r.1 rest
    (rr.1, r.2.toList ++ rr.2)

/-- All sample values pushed by a list of feeder operations. -/
def pushedVals : List FOp → List ℚ
  | [] => []
  | FOp.push c :: rest => c ++ pushedVals rest
  | FOp.clear :: rest => pushedVals rest
  | FOp.pull _ :: rest => pushedVals rest

theorem feederContents_push (s : FeederState) (c : List ℚ) :
    feederContents { s with buffers := s.buffers ++ [c] } =
      feederContents s ++ c := by
  simp [feederContents, List.flatten_append, List.append_assoc]

theorem feederRunOps_sound (ops : List FOp) :
    ∀ (s : FeederState) (S : List ℚ),
      (∀ v ∈ feederContents s, v ∈ S) →
      (∀ v ∈ pushedVals ops, v ∈ S) →
      (∀ out ∈ (feederRunOps s ops).2, ∀ v ∈ out, v = 0 ∨ v ∈ S) ∧
      (∀ v ∈ feederContents (feederRunOps s ops).1, v ∈ S) := by
  induction ops with
  | nil =>
    intro s S hs _
    exact ⟨by simp [feederRunOps], by simpa [feederRunOps] using hs⟩
  | cons op rest ih =>
    intro s S hs hp
    cases op with
    | push c =>
      have hs' : ∀ v ∈ feederContents { s with buffers := s.buffers ++ [c] },
          v ∈ S := by
        intro v hv
        rw [feederContents_push] at hv
        rcases List.mem_append.mp hv with h | h
        · exact hs v h
        · exact hp v (by simp [pushedVals]; exact Or.inl h)
      have hp' : ∀ v ∈ pushedVals rest, v ∈ S := fun v hv =>
        hp v (by simp [pushedVals]; exact Or.inr hv)
      have hrec := ih _ S hs' hp'
      constructor
      · intro out hout v hv
        exact hrec.1 out (by simpa [feederRunOps, feederStep] using hout) v hv
      · intro v hv
        exact hrec.2 v (by simpa [feederRunOps, feederStep] using hv)
    | clear =>
      have hs' : ∀ v ∈ feederContents (⟨[], 0, none⟩ : FeederState), v ∈ S := by
        simp [feederContents]
      have hp' : ∀ v ∈ pushedVals rest, v ∈ S := fun v hv =>
        hp v (by simpa [pushedVals] using hv)
      have hrec := ih _ S hs' hp'
      constructor
      · intro out hout v hv
        exact hrec.1 out (by simpa [feederRunOps, feederStep] using hout) v hv
      · intro v hv
        exact hrec.2 v (by simpa [feederRunOps, feederStep] using hv)
    | pull n =>
      have hchar := feederProcess_spec s n
      have hs' : ∀ v ∈ feederContents (feederProcess s n).2, v ∈ S := by
        intro v hv
        rw [hchar.2] at hv
        by_cases hle : n ≤ (feederContents s).length
        · rw [if_pos hle] at hv
          exact hs v (List.mem_of_mem_drop hv)
        · rw [if_neg hle] at hv
          exact absurd hv (by simp)
      have hout0 : ∀ v ∈ (feederProcess s n).1, v = 0 ∨ v ∈ S := by
        intro v hv
        rw [hchar.1] at hv
        by_cases hle : n ≤ (feederContents s).length
        · rw [if_pos hle] at hv
          exact Or.inr (hs v (List.mem_of_mem_take hv))
        · rw [if_neg hle] at hv
          exact Or.inl (List.eq_of_mem_replicate hv)
      have hp' : ∀ v ∈ pushedVals rest, v ∈ S := fun v hv =>
        hp v (by simpa [pushedVals] using hv)
      have hrec := ih _ S hs' hp'
      constructor
      · intro out hout v hv
        have hout' : out = (feederProcess s n).1 ∨
            out ∈ (feederRunOps (feederProcess s n).2 rest).2 := by
          simpa [feederRunOps, feederStep] using hout
        rcases hout' with rfl | h
        · exact hout0 v hv
        · exact hrec.1 out h v hv
      · intro v hv
        exact hrec.2 v (by simpa [feederRunOps, feederStep] using hv)

theorem feederRunOps_append (s : FeederState) (a b : List FOp) :
    (feederRunOps s (a ++ b)).1 = (feederRunOps (feederRunOps s a).1 b).1 := by
  induction a generalizing s with
  | nil => simp [feederRunOps]
  | cons op rest ih => simp [feederRunOps, ih]

theorem feederRunOps_clear_state (s : FeederState) :
    (feederRunOps s [FOp.clear]).1 = ⟨[], 0, none⟩ := rfl

/-- Control-side operations on the web `PCMPlayer` worklet: `push` and
`flush` arrive via `port.onmessage` (pcm-player-processor.js lines
9–19; a push is ignored unless the chunk is non-empty), and `pull n` is
one invocation of `process`. -/
inductive WOp where
  | push (chunk : List ℚ)
  | flush
  | pull (n : ℕ)

/-- One web-player operation. -/
def webStep (s : WebPlayerState) : WOp → WebPlayerState × Option (List ℚ)
  | WOp.push c =>
    (if 0 < c.length then { s with queue := s.queue ++ [c] } else s, none)
  | WOp.flush => (⟨[], 0⟩, none)
  | WOp.pull n => ((webProcess s n).2, some (webProcess s n).1)

/-- Runs a sequence of web-player operations, collecting pull
outputs. -/
def webRunOps (s : WebPlayerState) : List WOp → WebPlayerState × List (List ℚ)
  | [] => (s, [])
  | op :: rest =>
    let r := webStep s op
    let rr := webRunOps r.1 rest
    (rr.1, r.2.toList ++ rr.2)

/-- All sample values pushed by a list of web-player operations. -/
def wPushedVals : List WOp → List ℚ
  | [] => []
  | WOp.push c :: rest => c ++ wPushedVals rest
  | WOp.flush :: rest => wPushedVals rest
  | WOp.pull _ :: rest => wPushedVals rest

theorem webPullSample_vals (s : WebPlayerState) (S : List ℚ)
    (hq : ∀ v ∈ s.queue.flatten, v ∈ S) :
    ((webPullSample s).1 = 0 ∨ (webPullSample s).1 ∈ S) ∧
    (∀ v ∈ (webPullSample s).2.queue.flatten, v ∈ S) := by
  obtain ⟨queue, ri⟩ := s
  cases queue with
  | nil => exact ⟨Or.inl rfl, hq⟩
  | cons c rest =>
    have hval : c.getD ri 0 = 0 ∨ c.getD ri 0 ∈ S := by
      by_cases hri : ri < c.length
      · right
        apply hq
        rw [List.getD_eq_getElem c 0 hri]
        exact List.mem_flatten.mpr ⟨c, by simp, by simp⟩
      · left
        exact List.getD_eq_default c 0 (le_of_not_lt hri)
    by_cases hend : c.length ≤ ri + 1
    · have hpull : webPullSample ⟨c :: rest, ri⟩ = (c.getD ri 0, ⟨rest, 0⟩) := by
        simp [webPullSample, hend]
      rw [hpull]
      refine ⟨hval, ?_⟩
      intro v hv
      apply hq
      simp only [List.flatten_cons] at hv ⊢
      exact List.mem_append.mpr (Or.inr hv)
    · have hpull : webPullSample ⟨c :: rest, ri⟩ =
          (c.getD ri 0, ⟨c :: rest, ri + 1⟩) := by
        simp [webPullSample, hend]
      rw [hpull]
      exact ⟨hval, hq⟩

theorem webProcess_vals (n : ℕ) :
    ∀ (s : WebPlayerState) (S : List ℚ),
      (∀ v ∈ s.queue.flatten, v ∈ S) →
      (∀ v ∈ (webProcess s n).1, v = 0 ∨ v ∈ S) ∧
      (∀ v ∈ (webProcess s n).2.queue.flatten, v ∈ S) := by
  induction n with
  | zero => intro s S hq; exact ⟨by simp [webProcess], by simpa [webProcess] using hq⟩
  | succ n ih =>
    intro s S hq
    have h1 := webPullSample_vals s S hq
    have hrec := ih (webPullSample s).2 S h1.2
    constructor
    · intro v hv
      have hv' : v = (webPullSample s).1 ∨
          v ∈ (webProcess (webPullSample s).2 n).1 := by
        simpa [webProcess] using hv
      rcases hv' with rfl | h
      · exact h1.1
      · exact hrec.1 v h
    · intro v hv
      exact hrec.2 v (by simpa [webProcess] using hv)

theorem webRunOps_sound (ops : List WOp) :
    ∀ (s : WebPlayerState) (S : List ℚ),
      (∀ v ∈ s.queue.flatten, v ∈ S) →
      (∀ v ∈ wPushedVals ops, v ∈ S) →
      (∀ out ∈ (webRunOps s ops).2, ∀ v ∈ out, v = 0 ∨ v ∈ S) ∧
      (∀ v ∈ (webRunOps s ops).1.queue.flatten, v ∈ S) := by
  induction ops with
  | nil =>
    intro s S hs _
    exact ⟨by simp [webRunOps], by simpa [webRunOps] using hs⟩
  | cons op rest ih =>
    intro s S hs hp
    cases op with
    | push c =>
      have hs' : ∀ v ∈ (webStep s (WOp.push c)).1.queue.flatten, v ∈ S := by
        intro v hv
        by_cases hc : 0 < c.length
        · rw [show (webStep s (WOp.push c)).1 = { s with queue := s.queue ++ [c] } by
            simp [webStep, hc]] at hv
          simp only [List.flatten_append] at hv
          rcases List.mem_append.mp hv with h | h
          · exact hs v h
          · exact hp v (by simp [wPushedVals]; exact Or.inl (by simpa using h))
        · rw [show (webStep s (WOp.push c)).1 = s by simp [webStep, hc]] at hv
          exact hs v hv
      have hp' : ∀ v ∈ wPushedVals rest, v ∈ S := fun v hv =>
        hp v (by simp [wPushedVals]; exact Or.inr hv)
      have hrec := ih _ S hs' hp'
      constructor
      · intro out hout v hv
        exact hrec.1 out (by simpa [webRunOps, webStep] using hout) v hv
      · intro v hv
        exact hrec.2 v (by simpa [webRunOps] using hv)
    | flush =>
      have hs' : ∀ v ∈ ((⟨[], 0⟩ : WebPlayerState)).queue.flatten, v ∈ S := by
        simp
      have hp' : ∀ v ∈ wPushedVals rest, v ∈ S := fun v hv =>
        hp v (by simpa [wPushedVals] using hv)
      have hrec := ih _ S hs' hp'
      constructor
      · intro out hout v hv
        exact hrec.1 out (by simpa [webRunOps, webStep] using hout) v hv
      · intro v hv
        exact hrec.2 v (by simpa [webRunOps, webStep] using hv)
    | pull n =>
      have hvals := webProcess_vals n s S hs
      have hp' : ∀ v ∈ wPushedVals rest, v ∈ S := fun v hv =>
        hp v (by simpa [wPushedVals] using hv)
      have hrec := ih _ S hvals.2 hp'
      constructor
      · intro out hout v hv
        have hout' : out = (webProcess s n).1 ∨
            out ∈ (webRunOps (webProcess s n).2 rest).2 := by
          simpa [webRunOps, webStep] using hout
        rcases hout' with rfl | h
        · exact hvals.1 v hv
        · exact hrec.1 out h v hv
      · intro v hv
        exact hrec.2 v (by simpa [webRunOps, webStep] using hv)

theorem webRunOps_append (s : WebPlayerState) (a b : List WOp) :
    (webRunOps s (a ++ b)).1 = (webRunOps (webRunOps s a).1 b).1 := by
  induction a generalizing s with
  | nil => simp [webRunOps]
  | cons op rest ih => simp [webRunOps, ih]

theorem webRunOps_flush_state (s : WebPlayerState) :
    (webRunOps s [WOp.flush]).1 = ⟨[], 0⟩ := rfl

/-- C4: clearing is atomic for both playback-buffer variants.  For any
initial state, any operation prefix, a `clear` (resp. `flush`), and any
subsequent operations, every sample of every pull output after the
clear is either silence (0) or a value pushed after the clear: no pull
ever mixes pre-clear audio into its output, because `clear` discards
the whole queue — including the in-progress chunk and read cursor — in
one step. -/
theorem clear_atomicity :
    (∀ (s : FeederState) (pre post : List FOp),
      ((feederRunOps (feederRunOps s (pre ++ [FOp.clear])).1 post).2.all
        (fun out => out.all
          (fun v => decide (v = 0 ∨ v ∈ pushedVals post)))) = true) ∧
    (∀ (s : WebPlayerState) (pre post : List WOp),
      ((webRunOps (webRunOps s (pre ++ [WOp.flush])).1 post).2.all
        (fun out => out.all
          (fun v => decide (v = 0 ∨ v ∈ wPushedVals post)))) = true) := by
  constructor
  · intro s pre post
    have h0 : (feederRunOps s (pre ++ [FOp.clear])).1 = ⟨[], 0, none⟩ := by
      rw [feederRunOps_append, feederRunOps_clear_state]
    rw [h0]
    have hsound := feederRunOps_sound post ⟨[], 0, none⟩ (pushedVals post)
      (by simp [feederContents]) (fun v hv => hv)
    rw [List.all_eq_true]
    intro out hout
    rw [List.all_eq_true]
    intro v hv
    rw [decide_eq_true_iff]
    exact hsound.1 out hout v hv
  · intro s pre post
    have h0 : (webRunOps s (pre ++ [WOp.flush])).1 = ⟨[], 0⟩ := by
      rw [webRunOps_append, webRunOps_flush_state]
    rw [h0]
    have hsound := webRunOps_sound post ⟨[], 0⟩ (wPushedVals post)
      (by simp) (fun v hv => hv)
    rw [List.all_eq_true]
    intro out hout
    rw [List.all_eq_true]
    intro v hv
    rw [decide_eq_true_iff]
    exact hsound.1 out hout v hv

/-! ## Generation tracking and interruption -/

/-- The main-thread `PCMPlayer` object of
`src/src/assistant/services/scraper.js` (lines 1241–1351): `started`,
`activeGen` (set via `setGeneration`), `serverRate`, the context
`sampleRate`, and the worklet queue it posts chunks to. -/
structure PCMPlayerState where
  started : Bool
  activeGen : ℤ
  serverRate : ℚ
  sampleRate : ℚ
  queue : List (List ℚ)
deriving Repr, DecidableEq

/-- The Int16-to-float conversion of `enqueueBase64PCM16`:
`Math.max(-1, Math.min(1, i16[i] / 32768))`. -/
def int16ToFloat (v : ℤ) : ℚ := max (-1) (min 1 ((v : ℚ) / 32768))

/-- `PCMPlayer.enqueueBase64PCM16(b64, gen)` (scraper.js lines
1338–1350).  The base64/byte decoding is elided: the payload is given
directly as the decoded 16-bit samples, with the `!b64` falsy guard
modelled as the empty payload.  Guards in source order: not started or
empty payload → drop; `gen !== this.activeGen` → drop (no push);
otherwise convert to floats, resample when `serverRate ≠ sampleRate`,
and post one push message to the worklet queue. -/
def enqueueBase64PCM16 (p : PCMPlayerState) (samples : List ℤ) (gen : ℤ) :
    PCMPlayerState :=
  if ¬ p.started ∨ samples = [] then p
  else if gen ≠ p.activeGen then p
  else
    let f32 := samples.map int16ToFloat
    let f32R := if p.serverRate ≠ p.sampleRate
      then resampleLinear f32 p.serverRate p.sampleRate else f32
    { p with queue := p.queue ++ [f32R] }

/-- C1: generation gating.  Any inbound audio chunk whose generation tag
differs from the player's currently active generation is discarded:
`enqueueBase64PCM16` returns the state unchanged — in particular no
push reaches the PlaybackBuffer queue. -/
theorem generation_gating (p : PCMPlayerState) (samples : List ℤ) (gen : ℤ)
    (h : gen ≠ p.activeGen) :
    enqueueBase64PCM16 p samples gen = p := by
  unfold enqueueBase64PCM16
  split_ifs with h1 h2 <;> rfl

/-- Witness for `generation_gating`: a started player at generation 1
receives a chunk tagged with the stale generation 0 and is left
unchanged. -/
theorem generation_gating_witness :
    enqueueBase64PCM16 ⟨true, 1, 48000, 48000, []⟩ [100] 0 =
      ⟨true, 1, 48000, 48000, []⟩ :=
  generation_gating ⟨true, 1, 48000, 48000, []⟩ [100] 0 (by norm_num)

/-- The module-level generation state of scraper.js (lines 1353–1354)
plus the player's queue, with each queued chunk tagged (as a modelling
annotation) with the generation under which it was enqueued:
`responseGen`, `activeGen`, the player's `activeGen` (`playerGen`
here), and the playback queue. -/
structure GenState where
  responseGen : ℤ
  activeGen : ℤ
  playerGen : ℤ
  queue : List (ℤ × List ℚ)
deriving Repr, DecidableEq

/-- `bumpGeneration` (scraper.js line 1354):
`activeGen = ++responseGen; pcmPlayer?.setGeneration(activeGen)`. -/
def bumpGeneration (g : GenState) : GenState :=
  { g with responseGen := g.responseGen + 1, activeGen := g.responseGen + 1, playerGen := g.responseGen + 1 }

/-- `pcmPlayer.clear()`: posts the clear message, emptying the playback
queue. -/
def playerClear (g : GenState) : GenState := { g with queue := [] }

/-- The push performed by `enqueueBase64PCM16` at coordinator level:
the chunk is dropped unless its tag equals the player's generation
(the `started`/empty-payload guards are modelled in
`enqueueBase64PCM16` and elided here — they only drop further
chunks). -/
def playerEnqueue (g : GenState) (payload : List ℚ) (gen : ℤ) : GenState :=
  if gen = g.playerGen then { g with queue := g.queue ++ [(gen, payload)] }
  else g

/-- The inbound events of `ws.onmessage` that touch generation state
(scraper.js lines 1461–1478): `response.created` runs
`bumpGeneration(); pcmPlayer?.clear()`; `response.audio.delta` calls
`enqueueBase64PCM16(b64, activeGen)` (the dispatch tags the chunk with
the coordinator's current `activeGen`);
`input_audio_buffer.speech_started` runs `hardStopAssistantAudio`,
whose playback effect is the clear. -/
inductive RTEvent where
  | responseCreated
  | audioDelta (payload : List ℚ)
  | speechStarted

/-- Handles one inbound event. -/
def handleEvent (g : GenState) : RTEvent → GenState
  | RTEvent.responseCreated => playerClear (bumpGeneration g)
  | RTEvent.audioDelta payload => playerEnqueue g payload g.activeGen
  | RTEvent.speechStarted => playerClear g

/-- Runs a list of inbound events. -/
def runEvents (g : GenState) : List RTEvent → GenState
  | [] => g
  | e :: rest => runEvents (handleEvent g e) rest

/-- The initial module state: `let responseGen = 0, activeGen = 0` and a
player constructed with `activeGen = 0` and an empty queue. -/
def initGenState : GenState := ⟨0, 0, 0, []⟩

theorem runEvents_inv (evs : List RTEvent) :
    ∀ g : GenState, g.responseGen = g.activeGen → g.playerGen = g.activeGen →
      (∀ c ∈ g.queue, c.1 = g.activeGen) →
      (runEvents g evs).responseGen = (runEvents g evs).activeGen ∧
      (runEvents g evs).playerGen = (runEvents g evs).activeGen ∧
      ∀ c ∈ (runEvents g evs).queue, c.1 = (runEvents g evs).activeGen := by
  induction evs with
  | nil => intro g h1 h2 h3; exact ⟨h1, h2, h3⟩
  | cons e rest ih =>
    intro g h1 h2 h3
    cases e with
    | responseCreated =>
      exact ih _ rfl rfl (by simp [handleEvent, playerClear, bumpGeneration])
    | audioDelta payload =>
      have he : handleEvent g (RTEvent.audioDelta payload) =
          { g with queue := g.queue ++ [(g.activeGen, payload)] } := by
        show playerEnqueue g payload g.activeGen = _
        rw [playerEnqueue, if_pos h2.symm]
      have hq : ∀ c ∈ g.queue ++ [(g.activeGen, payload)], c.1 = g.activeGen := by
        intro c hc
        rcases List.mem_append.mp hc with hA | hB
        · exact h3 c hA
        · simp only [List.mem_singleton] at hB
          rw [hB]
      have hstep : runEvents g (RTEvent.audioDelta payload :: rest) =
          runEvents { g with queue := g.queue ++ [(g.activeGen, payload)] } rest := by
        show runEvents (handleEvent g (RTEvent.audioDelta payload)) rest = _
        rw [he]
      rw [hstep]
      exact ih _ h1 h2 hq
    | speechStarted =>
      exact ih _ h1 h2 (by simp [handleEvent, playerClear])

theorem runEvents_concat (g : GenState) (evs : List RTEvent) (e : RTEvent) :
    runEvents g (evs ++ [e]) = handleEvent (runEvents g evs) e := by
  induction evs generalizing g with
  | nil => rfl
  | cons x rest ih => exact ih (handleEvent g x)

/-- C10: for every inbound event trace from the initial state, all
chunks in the playback queue are tagged with the current active
generation (so the queue never simultaneously holds chunks of two
different generations), and every `response.created` event strictly
increases `activeGen` and leaves the queue empty before any of the new
response's chunks can be enqueued. -/
theorem generation_monotone_single :
    (∀ evs : List RTEvent,
      (runEvents initGenState evs).queue.all
        (fun c => decide (c.1 = (runEvents initGenState evs).activeGen)) = true) ∧
    (∀ evs : List RTEvent,
      (runEvents initGenState (evs ++ [RTEvent.responseCreated])).activeGen =
        (runEvents initGenState evs).activeGen + 1 ∧
      (runEvents initGenState (evs ++ [RTEvent.responseCreated])).queue = []) := by
  have hinv : ∀ evs : List RTEvent,
      (runEvents initGenState evs).responseGen =
        (runEvents initGenState evs).activeGen ∧
      (runEvents initGenState evs).playerGen =
        (runEvents initGenState evs).activeGen ∧
      ∀ c ∈ (runEvents initGenState evs).queue,
        c.1 = (runEvents initGenState evs).activeGen := fun evs =>
    runEvents_inv evs initGenState rfl rfl (by simp [initGenState])
  constructor
  · intro evs
    rw [List.all_eq_true]
    intro c hc
    rw [decide_eq_true_iff]
    exact (hinv evs).2.2 c hc
  · intro evs
    rw [runEvents_concat]
    constructor
    · show (playerClear (bumpGeneration (runEvents initGenState evs))).activeGen = _
      simp only [playerClear, bumpGeneration]
      rw [(hinv evs).1]
    · rfl

/-- The externally visible actions of `hardStopAssistantAudio`: the
`response.cancel` network send and the playback clear. -/
inductive CoordAction where
  | sendCancel
  | clearPlayback
deriving Repr, DecidableEq

/-- `hardStopAssistantAudio` (scraper.js line 1355), invoked on every
local VAD `start` transition (line 1565) and on the remote
`input_audio_buffer.speech_started` event (line 1478):
`try { if (wsOpen) ws.send({type:"response.cancel"}) } catch {}` and
then `pcmPlayer?.clear()`.  The emitted action list records the order:
the network send comes first, the local clear second; the UI `notify`
call is elided, and no generation field is touched. -/
def hardStopAssistantAudio (wsOpen : Bool) (g : GenState) :
    GenState × List CoordAction :=
  ((playerClear g),
    (if wsOpen then [CoordAction.sendCancel] else []) ++
      [CoordAction.clearPlayback])

/-- C2 (counterexample): with the channel open, `hardStopAssistantAudio`
emits the `response.cancel` send first and clears the PlaybackBuffer
second — the opposite of the claimed order — and it leaves the active
generation unchanged (there is no invalidation step at all). -/
theorem hardstop_sends_before_clear :
    (hardStopAssistantAudio true initGenState).2 =
      [CoordAction.sendCancel, CoordAction.clearPlayback] ∧
    [CoordAction.sendCancel, CoordAction.clearPlayback] ≠
      [CoordAction.clearPlayback, CoordAction.sendCancel] ∧
    (hardStopAssistantAudio true initGenState).1.activeGen =
      initGenState.activeGen := by
  refine ⟨rfl, by decide, rfl⟩

/-- C2 (amended): on every VAD start transition the coordinator runs
`hardStopAssistantAudio`, which sends the response-cancel event first —
whenever the channel is open, regardless of whether a generation is
active — and clears the PlaybackBuffer last: the cancel send, when
present, is the first action and the clear is the final action.  It
performs no generation invalidation: `responseGen`, `activeGen` and
the player's generation are all unchanged; the playback queue is
emptied.  When the channel is closed, only the clear occurs. -/
theorem vad_start_cancel_order :
    ∀ (wsOpen : Bool) (g : GenState),
      ((hardStopAssistantAudio wsOpen g).2.head? =
          some CoordAction.sendCancel ↔ wsOpen = true) ∧
      (hardStopAssistantAudio wsOpen g).2.getLast? =
        some CoordAction.clearPlayback ∧
      (hardStopAssistantAudio wsOpen g).1.activeGen = g.activeGen ∧
      (hardStopAssistantAudio wsOpen g).1.responseGen = g.responseGen ∧
      (hardStopAssistantAudio wsOpen g).1.playerGen = g.playerGen ∧
      (hardStopAssistantAudio wsOpen g).1.queue = [] := by
  intro wsOpen g
  cases wsOpen <;>
    simp [hardStopAssistantAudio, playerClear]
